import Mathlib

/-!
Verification development for the Q-vector table producer
(`Common/TableProducer/qVectorsTable.cxx`) and the weights loader
(`PWGCF/JCorran/Tasks/jflucWeightsLoader.cxx`).

The C++ tasks are shallowly embedded: amplitudes, centralities,
Q-vector components and weights are rationals, and `std::vector` state
is modelled by Lean lists with explicit passing.  The C math library's
cosine and sine (together with the detector-geometry lookup of the
channel azimuth, which the specification treats as an external
function) enter as an oracle parameter `Trig`; the real cosine/sine
pair satisfies `Trig.unit`, which theorems assume where the geometry
matters.  The helper routines of `EventPlaneHelper` (SumQvectors,
DoRecenter, DoTwist, DoRescale) live outside the sources at hand and
are modelled from the specification, as marked in their doc comments.
-/

namespace QvectorsTable

/-- The amplitude-sum threshold `1e-8` used by `CalQvec`. -/
def eps : ℚ := 1 / 100000000

/-- Sub-system indices from the `qVectorsTable` enum. -/
def kFT0C : ℕ := 0

/-- Sub-system index of FT0A. -/
def kFT0A : ℕ := 1

/-- Sub-system index of FT0M. -/
def kFT0M : ℕ := 2

/-- Sub-system index of FV0A. -/
def kFV0A : ℕ := 3

/-- Sub-system index of BPos. -/
def kBPos : ℕ := 4

/-- Sub-system index of BNeg. -/
def kBNeg : ℕ := 5

/-- Oracle for the C math library's cosine and sine, which the
embedding does not recompute. -/
structure Trig where
  cosF : ℚ → ℚ
  sinF : ℚ → ℚ

/-- The property the real cosine/sine pair has: values lie on the unit
circle. -/
def Trig.unit (tg : Trig) : Prop :=
  ∀ x : ℚ, tg.cosF x ^ 2 + tg.sinF x ^ 2 = 1

/-- The `useDetector` map of `qVectorsTable`, fixed at init from the
workflow inputs: one enable flag per sub-system table. -/
structure Config where
  useFT0A : Bool
  useFT0C : Bool
  useFT0M : Bool
  useFV0A : Bool
  useBPos : Bool
  useBNeg : Bool

/-- A barrel track as consumed by `SelTrack` and the sub-event loop of
`CalQvec`: kinematics plus the track-quality flags read by `SelTrack`. -/
structure Track where
  pt : ℚ
  eta : ℚ
  phi : ℚ
  globalIndex : ℤ
  passedITSNCls : Bool
  passedITSChi2NDF : Bool
  passedITSHits : Bool
  passedTPCCrossedRowsOverNCls : Bool
  passedTPCChi2NDF : Bool
  passedDCAxy : Bool
  passedDCAz : Bool

/-- `qVectorsTable::SelTrack`: the pT window followed by the
track-quality flags, all of which must pass. -/
def SelTrack (minPt maxPt : ℚ) (t : Track) : Bool :=
  if t.pt < minPt then false
  else if maxPt < t.pt then false
  else
    t.passedITSNCls && t.passedITSChi2NDF && t.passedITSHits &&
    t.passedTPCCrossedRowsOverNCls && t.passedTPCChi2NDF &&
    t.passedDCAxy && t.passedDCAz

/-- Mutable state of the track loop in `CalQvec`: the two pT-weighted
sums, the contributing-track label lists, and the member counts. -/
structure TrkState where
  qPos : ℚ × ℚ
  qNeg : ℚ × ℚ
  labP : List ℤ
  labN : List ℤ
  nP : ℕ
  nN : ℕ

/-- One iteration of the track loop of `CalQvec` (lines 379-398): skip
unselected tracks, skip tracks outside `0.1 ≤ |eta| ≤ 0.8`, then add to
the positive (eta > 0, BPos enabled) or negative (eta < 0, BNeg
enabled) sub-event. -/
def trackStep (tg : Trig) (cfg : Config) (minPt maxPt : ℚ) (n : ℕ) (s : TrkState) (t : Track) :
    TrkState :=
  if SelTrack minPt maxPt t = false then s
  else if |t.eta| < 1/10 ∨ 8/10 < |t.eta| then s
  else if 0 < t.eta ∧ cfg.useBPos = true then
    { s with
      qPos := (s.qPos.1 + t.pt * tg.cosF (t.phi * n), s.qPos.2 + t.pt * tg.sinF (t.phi * n))
      labP := s.labP ++ [t.globalIndex]
      nP := s.nP + 1 }
  else if t.eta < 0 ∧ cfg.useBNeg = true then
    { s with
      qNeg := (s.qNeg.1 + t.pt * tg.cosF (t.phi * n), s.qNeg.2 + t.pt * tg.sinF (t.phi * n))
      labN := s.labN ++ [t.globalIndex]
      nN := s.nN + 1 }
  else s

/-- The full track loop of `CalQvec` over the event's tracks. -/
def trackLoop (tg : Trig) (cfg : Config) (minPt maxPt : ℚ) (n : ℕ) (tracks : List Track) :
    TrkState :=
  tracks.foldl (trackStep tg cfg minPt maxPt n) ⟨(0, 0), (0, 0), [], [], 0, 0⟩

/-- A track is routed to the positive sub-event; the branch structure
mirrors the loop body of `CalQvec`. -/
def goesPos (cfg : Config) (minPt maxPt : ℚ) (t : Track) : Bool :=
  if SelTrack minPt maxPt t = false then false
  else if |t.eta| < 1/10 ∨ 8/10 < |t.eta| then false
  else if 0 < t.eta ∧ cfg.useBPos = true then true
  else false

/-- A track is routed to the negative sub-event; the branch structure
mirrors the loop body of `CalQvec`. -/
def goesNeg (cfg : Config) (minPt maxPt : ℚ) (t : Track) : Bool :=
  if SelTrack minPt maxPt t = false then false
  else if |t.eta| < 1/10 ∨ 8/10 < |t.eta| then false
  else if 0 < t.eta ∧ cfg.useBPos = true then false
  else if t.eta < 0 ∧ cfg.useBNeg = true then true
  else false

/-- Finalization of the two track sub-events (lines 400-414): divide by
the member count when positive, else the sentinel `(999, 999)`. -/
def finalizeB (s : TrkState) : (ℚ × ℚ) × (ℚ × ℚ) :=
  ((if 0 < s.nP then (s.qPos.1 / (s.nP : ℚ), s.qPos.2 / (s.nP : ℚ)) else (999, 999)),
   (if 0 < s.nN then (s.qNeg.1 / (s.nN : ℚ), s.qNeg.2 / (s.nN : ℚ)) else (999, 999)))

/-- Modelled from the spec: `EventPlaneHelper::SumQvectors`
(`Common/Core/EventPlaneHelper`, not among the sources at hand) adds
`amplitude · (cos(n·φ), sin(n·φ))` to the running Q-vector and the
amplitude to the running sum, with the azimuth `φ` supplied by the
detector geometry.  Here `phi` is that azimuth and the trigonometric
evaluation goes through the oracle. -/
def sumQvectors (tg : Trig) (n : ℕ) (phi a : ℚ) (acc : (ℚ × ℚ) × ℚ) : (ℚ × ℚ) × ℚ :=
  ((acc.1.1 + a * tg.cosF ((n : ℚ) * phi), acc.1.2 + a * tg.sinF ((n : ℚ) * phi)), acc.2 + a)

/-- Accumulation of a channel list of (azimuth, amplitude) pairs by
repeated `sumQvectors`, starting from a given state. -/
def accumQ (tg : Trig) (n : ℕ) (chans : List (ℚ × ℚ)) (init : (ℚ × ℚ) × ℚ) : (ℚ × ℚ) × ℚ :=
  chans.foldl (fun acc c => sumQvectors tg n c.1 c.2 acc) init

/-- Gain equalization as applied in `CalQvec`:
`ampl / FT0RelGainConst[chId]` (resp. FV0).  Indexing past the gain
table is undefined behaviour in the source; the model returns the
neutral gain 1 there. -/
def correctedAmp (gain : List ℚ) (ch : ℕ) (a : ℚ) : ℚ :=
  a / gain.getD ch 1

/-- The channel loops of `CalQvec`: each raw `(channel, amplitude)`
pair has the channel offset applied (`+96` for FT0C, `0` otherwise),
the amplitude divided by the channel's relative gain, and is then fed
to `sumQvectors` with the azimuth `phiOf det ch` from the geometry. -/
def accumChans (tg : Trig) (gain : List ℚ) (phiOf : ℕ → ℕ → ℚ) (det n offset : ℕ)
    (chans : List (ℕ × ℚ)) (init : (ℚ × ℚ) × ℚ) : (ℚ × ℚ) × ℚ :=
  accumQ tg n (chans.map (fun ca => (phiOf det (ca.1 + offset), correctedAmp gain (ca.1 + offset) ca.2))) init

/-- The zero accumulator state. -/
def initQ : (ℚ × ℚ) × ℚ := ((0, 0), 0)

/-- The FT0 gain table from `initCCDB` (lines 217-226): the CCDB object
when present, otherwise 208 entries of 1. -/
def ft0Gain (o : Option (List ℚ)) : List ℚ :=
  match o with
  | none => List.replicate 208 1
  | some v => v

/-- The FV0 gain table from `initCCDB` (lines 228-237): the CCDB object
when present, otherwise 48 entries of 1. -/
def fv0Gain (o : Option (List ℚ)) : List ℚ :=
  match o with
  | none => List.replicate 48 1
  | some v => v

/-- The normalization used for FT0C (lines 319-326) and FV0A (lines
363-370): divide by the amplitude sum when it exceeds `1e-8`, else the
enabled-but-undefined sentinel `(999, 999)`. -/
def subEventOut (tg : Trig) (n : ℕ) (chans : List (ℚ × ℚ)) : ℚ × ℚ :=
  let st := accumQ tg n chans initQ
  if eps < st.2 then (st.1.1 / st.2, st.1.2 / st.2) else (999, 999)

/-- Result of the FT0 section of `CalQvec`: the three assembled
Q-vectors and the three amplitude sums. -/
structure FT0Out where
  qA : ℚ × ℚ
  qC : ℚ × ℚ
  qM : ℚ × ℚ
  sumA : ℚ
  sumC : ℚ
  sumM : ℚ

/-- The FT0 section of `CalQvec` (lines 282-347).  A-side channels are
processed only when FT0A is enabled (feeding both the FT0A and the
shared FT0M accumulator), C-side channels (with channel offset `+96`)
only when FT0C is enabled; the branch structure and sentinel
assignments mirror the source, including the FT0A branch having no
low-amplitude else (leaving the initializer `(0, 0)`) and assigning
`(999, 999)` when FT0A is disabled. -/
def ft0Block (cfg : Config) (hasFT0 : Bool) (gain : List ℚ) (phiOf : ℕ → ℕ → ℚ) (tg : Trig)
    (n : ℕ) (chanA chanC : List (ℕ × ℚ)) : FT0Out :=
  if hasFT0 = true ∧ (cfg.useFT0A = true ∨ cfg.useFT0C = true ∨ cfg.useFT0M = true) then
    let stA := if cfg.useFT0A = true then accumChans tg gain phiOf 0 n 0 chanA initQ else initQ
    let stM1 := if cfg.useFT0A = true then accumChans tg gain phiOf 0 n 0 chanA initQ else initQ
    let qA : ℚ × ℚ :=
      if cfg.useFT0A = true then
        (if eps < stA.2 then (stA.1.1 / stA.2, stA.1.2 / stA.2) else (0, 0))
      else (999, 999)
    let stC := if cfg.useFT0C = true then accumChans tg gain phiOf 0 n 96 chanC initQ else initQ
    let stM2 := if cfg.useFT0C = true then accumChans tg gain phiOf 0 n 96 chanC stM1 else stM1
    let qC : ℚ × ℚ :=
      if cfg.useFT0C = true then
        (if eps < stC.2 then (stC.1.1 / stC.2, stC.1.2 / stC.2) else (999, 999))
      else (-999, -999)
    let qM : ℚ × ℚ :=
      if eps < stM2.2 ∧ cfg.useFT0M = true then (stM2.1.1 / stM2.2, stM2.1.2 / stM2.2)
      else (999, 999)
    ⟨qA, qC, qM, stA.2, stC.2, stM2.2⟩
  else
    ⟨(-999, -999), (-999, -999), (-999, -999), 0, 0, 0⟩

/-- The FV0 section of `CalQvec` (lines 349-374): accumulate when FV0
data is present and FV0A enabled, normalize above the threshold with
sentinel `(999, 999)`, else the disabled sentinel `(-999, -999)`. -/
def fv0Block (cfg : Config) (hasFV0 : Bool) (gain : List ℚ) (phiOf : ℕ → ℕ → ℚ) (tg : Trig)
    (n : ℕ) (chans : List (ℕ × ℚ)) : (ℚ × ℚ) × ℚ :=
  if hasFV0 = true ∧ cfg.useFV0A = true then
    let st := accumChans tg gain phiOf 1 n 0 chans initQ
    ((if eps < st.2 then (st.1.1 / st.2, st.1.2 / st.2) else (999, 999)), st.2)
  else ((-999, -999), 0)

/-- The six per-sub-system Q-vectors computed by `CalQvec`, in the
enum order FT0C, FT0A, FT0M, FV0A, BPos, BNeg. -/
def subsysVals (f : FT0Out) (v : (ℚ × ℚ) × ℚ) (bp bn : ℚ × ℚ) : Fin 6 → ℚ × ℚ :=
  ![f.qC, f.qA, f.qM, v.1, bp, bn]

/-- Four copies of one value, as pushed by each of the six copy loops
at the end of `CalQvec` (lines 416-439). -/
def rep4 (x : ℚ) : List ℚ :=
  List.replicate 4 x

/-- The 24 real components appended by one `CalQvec` call. -/
def qBlockRe (q : Fin 6 → ℚ × ℚ) : List ℚ :=
  rep4 (q 0).1 ++ (rep4 (q 1).1 ++ (rep4 (q 2).1 ++ (rep4 (q 3).1 ++ (rep4 (q 4).1 ++ rep4 (q 5).1))))

/-- The 24 imaginary components appended by one `CalQvec` call. -/
def qBlockIm (q : Fin 6 → ℚ × ℚ) : List ℚ :=
  rep4 (q 0).2 ++ (rep4 (q 1).2 ++ (rep4 (q 2).2 ++ (rep4 (q 3).2 ++ (rep4 (q 4).2 ++ rep4 (q 5).2))))

/-- The by-reference vectors a `CalQvec` call appends to: component
lists, amplitude list, and the two label lists. -/
structure QState where
  re : List ℚ
  im : List ℚ
  amp : List ℚ
  labP : List ℤ
  labN : List ℤ

/-- `qVectorsTable::CalQvec`: computes the FT0, FV0 and track-based
sub-event Q-vectors, then appends four copies of each of the six
vectors (in enum order) to the component lists, the six amplitude sums
(track counts for BPos/BNeg) to the amplitude list, and the
contributing-track labels to the label lists. -/
def calQvec (tg : Trig) (cfg : Config) (minPt maxPt : ℚ) (gF gV : List ℚ)
    (phiOf : ℕ → ℕ → ℚ) (n : ℕ) (hasFT0 hasFV0 : Bool)
    (chanA chanC chanV : List (ℕ × ℚ)) (tracks : List Track) (st : QState) : QState :=
  let f := ft0Block cfg hasFT0 gF phiOf tg n chanA chanC
  let v := fv0Block cfg hasFV0 gV phiOf tg n chanV
  let tk := trackLoop tg cfg minPt maxPt n tracks
  let bq := finalizeB tk
  let q := subsysVals f v bq.1 bq.2
  { re := st.re ++ qBlockRe q
    im := st.im ++ qBlockIm q
    amp := st.amp ++ [f.sumC, f.sumA, f.sumM, v.2, (tk.nP : ℚ), (tk.nN : ℚ)]
    labP := st.labP ++ tk.labP
    labN := st.labN ++ tk.labN }

/-- Modelled from the spec: `EventPlaneHelper::DoRecenter` subtracts
the centrality-binned mean vector: `Q' = Q - (x, y)`. -/
def doRecenter (qx qy x y : ℚ) : ℚ × ℚ :=
  (qx - x, qy - y)

/-- Modelled from the spec: `EventPlaneHelper::DoTwist` is a 2×2
affine mixing of the two components driven by the two twist
coefficients. -/
def doTwist (qx qy a b : ℚ) : ℚ × ℚ :=
  ((qx - a * qy) / (1 - a * b), (qy - b * qx) / (1 - a * b))

/-- Modelled from the spec: `EventPlaneHelper::DoRescale` divides each
component by its own width coefficient. -/
def doRescale (qx qy x y : ℚ) : ℚ × ℚ :=
  (qx / x, qy / y)

/-- In-place update of entry `idx` of the component lists, as done by
the `DoRecenter`/`DoTwist`/`DoRescale` calls that receive
`qvecRe[idx]`, `qvecIm[idx]` by reference. -/
def applyAt (idx : ℕ) (f : ℚ → ℚ → ℚ × ℚ) (s : List ℚ × List ℚ) : List ℚ × List ℚ :=
  let q := f (s.1.getD idx 0) (s.2.getD idx 0)
  (s.1.set idx q.1, s.2.set idx q.2)

/-- The body of the correction loop of `process` for one sub-system
`i` (lines 511-528 and 546-563): recenter copy 1; recenter then twist
copy 2; recenter, twist, then rescale copy 3.  Constants are read from
the calibration object at x-bin `bin`, y-bin 1..6 (mean_x, mean_y,
twist_a, twist_b, rescale_x, rescale_y) and z-bin `i+1`; `base` is the
offset `(kBNeg + 1) * 4 * id` of the current harmonic's block. -/
def correctSub (calib : ℤ → ℕ → ℕ → ℚ) (bin : ℤ) (base i : ℕ) (s : List ℚ × List ℚ) :
    List ℚ × List ℚ :=
  applyAt (base + (i * 4 + 3))
    (fun qx qy => doRescale qx qy (calib bin 5 (i + 1)) (calib bin 6 (i + 1)))
    (applyAt (base + (i * 4 + 3))
      (fun qx qy => doTwist qx qy (calib bin 3 (i + 1)) (calib bin 4 (i + 1)))
      (applyAt (base + (i * 4 + 3))
        (fun qx qy => doRecenter qx qy (calib bin 1 (i + 1)) (calib bin 2 (i + 1)))
        (applyAt (base + (i * 4 + 2))
          (fun qx qy => doTwist qx qy (calib bin 3 (i + 1)) (calib bin 4 (i + 1)))
          (applyAt (base + (i * 4 + 2))
            (fun qx qy => doRecenter qx qy (calib bin 1 (i + 1)) (calib bin 2 (i + 1)))
            (applyAt (base + (i * 4 + 1))
              (fun qx qy => doRecenter qx qy (calib bin 1 (i + 1)) (calib bin 2 (i + 1)))
              s)))))

/-- The correction loop of `process` over the six sub-systems. -/
def applyCorr (calib : ℤ → ℕ → ℕ → ℚ) (bin : ℤ) (base : ℕ) (s : List ℚ × List ℚ) :
    List ℚ × List ℚ :=
  (List.range 6).foldl (fun st i => correctSub calib bin base i st) s

/-- C++ `static_cast<int>` on a non-integral value: truncation toward
zero. -/
def cppTrunc (q : ℚ) : ℤ :=
  if 0 ≤ q then ⌊q⌋ else -⌊-q⌋

/-- The calibration x-bin used by `process`:
`static_cast<int>(cent) + 1`. -/
def centBin (c : ℚ) : ℤ :=
  cppTrunc c + 1

/-- The centrality adjustment of `process` (lines 498-506): out of
`[0, 80]` the centrality becomes the sentinel 110 and the event is
flagged uncalibrated. -/
def adjustCent (cent : ℚ) : ℚ × Bool :=
  if cent < 0 ∨ 80 < cent then (110, false) else (cent, true)

/-- The per-harmonic correction pass of `process`: corrections are
applied iff the (already adjusted) centrality is below 80, using the
bin `static_cast<int>(cent) + 1` and the block offset
`(kBNeg + 1) * 4 * id`. -/
def processHarmonic (calib : ℤ → ℕ → ℕ → ℚ) (c : ℚ) (base : ℕ) (s : List ℚ × List ℚ) :
    List ℚ × List ℚ :=
  if c < 80 then applyCorr calib (centBin c) base s else s

/-- The per-sub-system value emitted to the output tables (lines
530-541 and 565-576): the entry at offset `i * 4 + 3` of harmonic block
`id`. -/
def emitPair (s : List ℚ × List ℚ) (id i : ℕ) : ℚ × ℚ :=
  (s.1.getD ((kBNeg + 1) * 4 * id + (i * 4 + 3)) 0,
   s.2.getD ((kBNeg + 1) * 4 * id + (i * 4 + 3)) 0)

/-- One recentering of a Q-vector with the constants of sub-system `i`
(mean_x at y-bin 1, mean_y at y-bin 2). -/
def cascade1 (calib : ℤ → ℕ → ℕ → ℚ) (bin : ℤ) (i : ℕ) (v : ℚ × ℚ) : ℚ × ℚ :=
  doRecenter v.1 v.2 (calib bin 1 (i + 1)) (calib bin 2 (i + 1))

/-- Recentering followed by the twist with the constants of sub-system
`i` (twist_a at y-bin 3, twist_b at y-bin 4). -/
def cascade2 (calib : ℤ → ℕ → ℕ → ℚ) (bin : ℤ) (i : ℕ) (v : ℚ × ℚ) : ℚ × ℚ :=
  doTwist (cascade1 calib bin i v).1 (cascade1 calib bin i v).2
    (calib bin 3 (i + 1)) (calib bin 4 (i + 1))

/-- Recentering, twist, then rescale with the constants of sub-system
`i` (rescale_x at y-bin 5, rescale_y at y-bin 6). -/
def cascade3 (calib : ℤ → ℕ → ℕ → ℚ) (bin : ℤ) (i : ℕ) (v : ℚ × ℚ) : ℚ × ℚ :=
  doRescale (cascade2 calib bin i v).1 (cascade2 calib bin i v).2
    (calib bin 5 (i + 1)) (calib bin 6 (i + 1))

/-- The full per-harmonic calibration path of `process` (lines 498-528):
the centrality is adjusted once per event, then the correction pass for
harmonic block `id` runs on the component lists. -/
def corrected (calib : ℤ → ℕ → ℕ → ℚ) (cent : ℚ) (id : ℕ) (s : List ℚ × List ℚ) :
    List ℚ × List ℚ :=
  processHarmonic calib (adjustCent cent).1 ((kBNeg + 1) * 4 * id) s

/-- Calibration-object loading of `initCCDB` (lines 203-216): fetch the
object for harmonic `ind`; when absent, fall back to the harmonic-2
object; the result — possibly still absent — is stored for `process`. -/
def loadCalibTable (lookup : ℕ → Option (ℤ → ℕ → ℕ → ℚ)) (ind : ℕ) :
    Option (ℤ → ℕ → ℕ → ℚ) :=
  match lookup ind with
  | some t => some t
  | none => lookup 2

/-- The only guard in front of the correction calls of `process`
(lines 511 and 546): the adjusted centrality must be below 80.  The
presence of the stored calibration object is not checked. -/
def correctionsApplied (cent : ℚ) : Bool :=
  decide ((adjustCent cent).1 < 80)

end QvectorsTable

namespace JflucWeightsLoader

/-- A track as consumed by `jflucWeightsLoader::loadWeights`. -/
structure WTrack where
  phi : ℚ
  eta : ℚ

/-- One output row of `loadWeights` (lines 129-152): the phi weight is
the NUA histogram value at (multiplicity, partType = 0, phi, eta, posZ)
when a histogram is loaded, else 1; the efficiency weight is always 1. -/
def weightRow (ph : Option (List ℚ → ℚ)) (mult posZ : ℚ) (t : WTrack) : ℚ × ℚ :=
  ((match ph with
    | some h => h [mult, 0, t.phi, t.eta, posZ]
    | none => 1), 1)

/-- The output loop of `loadWeights`: one row appended per track, in
traversal order. -/
def loadWeights (ph : Option (List ℚ → ℚ)) (mult posZ : ℚ) (tracks : List WTrack)
    (out : List (ℚ × ℚ)) : List (ℚ × ℚ) :=
  tracks.foldl (fun acc t => acc ++ [weightRow ph mult posZ t]) out

end JflucWeightsLoader

namespace QvectorsTable

lemma trackStep_labP (tg : Trig) (cfg : Config) (minPt maxPt : ℚ) (n : ℕ) (s : TrkState)
    (t : Track) :
    (trackStep tg cfg minPt maxPt n s t).labP =
      s.labP ++ (if goesPos cfg minPt maxPt t then [t.globalIndex] else []) := by
  unfold trackStep goesPos
  by_cases h1 : SelTrack minPt maxPt t = false
  · rw [if_pos h1, if_pos h1]; simp
  · rw [if_neg h1, if_neg h1]
    by_cases h2 : |t.eta| < 1/10 ∨ 8/10 < |t.eta|
    · rw [if_pos h2, if_pos h2]; simp
    · rw [if_neg h2, if_neg h2]
      by_cases h3 : 0 < t.eta ∧ cfg.useBPos = true
      · rw [if_pos h3, if_pos h3]; simp
      · rw [if_neg h3, if_neg h3]
        by_cases h4 : t.eta < 0 ∧ cfg.useBNeg = true
        · rw [if_pos h4]; simp
        · rw [if_neg h4]; simp

lemma trackStep_labN (tg : Trig) (cfg : Config) (minPt maxPt : ℚ) (n : ℕ) (s : TrkState)
    (t : Track) :
    (trackStep tg cfg minPt maxPt n s t).labN =
      s.labN ++ (if goesNeg cfg minPt maxPt t then [t.globalIndex] else []) := by
  unfold trackStep goesNeg
  by_cases h1 : SelTrack minPt maxPt t = false
  · rw [if_pos h1, if_pos h1]; simp
  · rw [if_neg h1, if_neg h1]
    by_cases h2 : |t.eta| < 1/10 ∨ 8/10 < |t.eta|
    · rw [if_pos h2, if_pos h2]; simp
    · rw [if_neg h2, if_neg h2]
      by_cases h3 : 0 < t.eta ∧ cfg.useBPos = true
      · rw [if_pos h3, if_pos h3]; simp
      · rw [if_neg h3, if_neg h3]
        by_cases h4 : t.eta < 0 ∧ cfg.useBNeg = true
        · rw [if_pos h4, if_pos h4]; simp
        · rw [if_neg h4, if_neg h4]; simp

lemma trackLoop_aux_labP (tg : Trig) (cfg : Config) (minPt maxPt : ℚ) (n : ℕ) :
    ∀ (tracks : List Track) (s : TrkState),
      (tracks.foldl (trackStep tg cfg minPt maxPt n) s).labP =
        s.labP ++ (tracks.filter (goesPos cfg minPt maxPt)).map Track.globalIndex := by
  intro tracks
  induction tracks with
  | nil => intro s; simp
  | cons t rest ih =>
      intro s
      rw [List.foldl_cons, ih]
      rw [trackStep_labP]
      by_cases h : goesPos cfg minPt maxPt t
      · simp [h]
      · simp [h]

lemma trackLoop_aux_labN (tg : Trig) (cfg : Config) (minPt maxPt : ℚ) (n : ℕ) :
    ∀ (tracks : List Track) (s : TrkState),
      (tracks.foldl (trackStep tg cfg minPt maxPt n) s).labN =
        s.labN ++ (tracks.filter (goesNeg cfg minPt maxPt)).map Track.globalIndex := by
  intro tracks
  induction tracks with
  | nil => intro s; simp
  | cons t rest ih =>
      intro s
      rw [List.foldl_cons, ih]
      rw [trackStep_labN]
      by_cases h : goesNeg cfg minPt maxPt t
      · simp [h]
      · simp [h]

lemma applyAt_fst_length (idx : ℕ) (f : ℚ → ℚ → ℚ × ℚ) (s : List ℚ × List ℚ) :
    (applyAt idx f s).1.length = s.1.length := by
  simp [applyAt]

lemma applyAt_snd_length (idx : ℕ) (f : ℚ → ℚ → ℚ × ℚ) (s : List ℚ × List ℚ) :
    (applyAt idx f s).2.length = s.2.length := by
  simp [applyAt]

lemma applyAt_fst_getD_ne (idx j : ℕ) (f : ℚ → ℚ → ℚ × ℚ) (s : List ℚ × List ℚ)
    (h : ¬ idx = j) :
    (applyAt idx f s).1.getD j 0 = s.1.getD j 0 := by
  simp [applyAt, List.getD_eq_getElem?_getD, List.getElem?_set_ne h]

lemma applyAt_snd_getD_ne (idx j : ℕ) (f : ℚ → ℚ → ℚ × ℚ) (s : List ℚ × List ℚ)
    (h : ¬ idx = j) :
    (applyAt idx f s).2.getD j 0 = s.2.getD j 0 := by
  simp [applyAt, List.getD_eq_getElem?_getD, List.getElem?_set_ne h]

lemma applyAt_fst_getD_eq (idx : ℕ) (f : ℚ → ℚ → ℚ × ℚ) (s : List ℚ × List ℚ)
    (h : idx < s.1.length) :
    (applyAt idx f s).1.getD idx 0 = (f (s.1.getD idx 0) (s.2.getD idx 0)).1 := by
  simp [applyAt, List.getD_eq_getElem?_getD, List.getElem?_set_eq_of_lt _ h]

lemma applyAt_snd_getD_eq (idx : ℕ) (f : ℚ → ℚ → ℚ × ℚ) (s : List ℚ × List ℚ)
    (h : idx < s.2.length) :
    (applyAt idx f s).2.getD idx 0 = (f (s.1.getD idx 0) (s.2.getD idx 0)).2 := by
  simp [applyAt, List.getD_eq_getElem?_getD, List.getElem?_set_eq_of_lt _ h]

lemma qBlockRe_length (q : Fin 6 → ℚ × ℚ) : (qBlockRe q).length = 24 := by
  simp [qBlockRe, rep4]

lemma qBlockIm_length (q : Fin 6 → ℚ × ℚ) : (qBlockIm q).length = 24 := by
  simp [qBlockIm, rep4]

lemma range6 : List.range 6 = [0, 1, 2, 3, 4, 5] := rfl

lemma applyCorr_block (calib : ℤ → ℕ → ℕ → ℚ) (bin : ℤ) (q : Fin 6 → ℚ × ℚ) (i : Fin 6) :
    ((applyCorr calib bin 0 (qBlockRe q, qBlockIm q)).1.getD ((i : ℕ) * 4) 0,
     (applyCorr calib bin 0 (qBlockRe q, qBlockIm q)).2.getD ((i : ℕ) * 4) 0) = q i ∧
    ((applyCorr calib bin 0 (qBlockRe q, qBlockIm q)).1.getD ((i : ℕ) * 4 + 1) 0,
     (applyCorr calib bin 0 (qBlockRe q, qBlockIm q)).2.getD ((i : ℕ) * 4 + 1) 0) =
      cascade1 calib bin (i : ℕ) (q i) ∧
    ((applyCorr calib bin 0 (qBlockRe q, qBlockIm q)).1.getD ((i : ℕ) * 4 + 2) 0,
     (applyCorr calib bin 0 (qBlockRe q, qBlockIm q)).2.getD ((i : ℕ) * 4 + 2) 0) =
      cascade2 calib bin (i : ℕ) (q i) ∧
    ((applyCorr calib bin 0 (qBlockRe q, qBlockIm q)).1.getD ((i : ℕ) * 4 + 3) 0,
     (applyCorr calib bin 0 (qBlockRe q, qBlockIm q)).2.getD ((i : ℕ) * 4 + 3) 0) =
      cascade3 calib bin (i : ℕ) (q i) := by
  fin_cases i <;>
    refine ⟨?_, ?_, ?_, ?_⟩ <;>
      (rw [applyCorr, range6]
       simp only [List.foldl_cons, List.foldl_nil]
       unfold correctSub
       simp [applyAt_fst_getD_ne, applyAt_snd_getD_ne, applyAt_fst_getD_eq, applyAt_snd_getD_eq,
             applyAt_fst_length, applyAt_snd_length, qBlockRe_length, qBlockIm_length,
             -List.getD_eq_getElem?_getD]
       rfl)

lemma getD_append_len {α : Type} (l l2 : List α) (n : ℕ) (d : α) :
    (l ++ l2).getD (l.length + n) d = l2.getD n d := by
  rw [List.getD_append_right l l2 d (l.length + n) (Nat.le_add_right _ _)]
  congr 1
  omega

lemma set_append_len {α : Type} (l l2 : List α) (n : ℕ) (a : α) :
    (l ++ l2).set (l.length + n) a = l ++ l2.set n a := by
  induction l with
  | nil => simp
  | cons x t ih =>
      rw [List.cons_append, List.length_cons]
      have h : t.length + 1 + n = (t.length + n) + 1 := by omega
      rw [h, List.set_cons_succ, ih, List.cons_append]

lemma applyAt_append (f : ℚ → ℚ → ℚ × ℚ) (j : ℕ) (p1 p2 l1 l2 : List ℚ)
    (h : p2.length = p1.length) :
    applyAt (p1.length + j) f (p1 ++ l1, p2 ++ l2) =
      (p1 ++ (applyAt j f (l1, l2)).1, p2 ++ (applyAt j f (l1, l2)).2) := by
  have hx : (p1 ++ l1).getD (p1.length + j) 0 = l1.getD j 0 := getD_append_len p1 l1 j 0
  have hy : (p2 ++ l2).getD (p1.length + j) 0 = l2.getD j 0 := by
    rw [← h]; exact getD_append_len p2 l2 j 0
  have hs1 : ∀ v, (p1 ++ l1).set (p1.length + j) v = p1 ++ l1.set j v :=
    fun v => set_append_len p1 l1 j v
  have hs2 : ∀ v, (p2 ++ l2).set (p1.length + j) v = p2 ++ l2.set j v := by
    intro v; rw [← h]; exact set_append_len p2 l2 j v
  unfold applyAt
  simp only [hx, hy, hs1, hs2]

lemma correctSub_append (calib : ℤ → ℕ → ℕ → ℚ) (bin : ℤ) (i : ℕ) (p1 p2 l1 l2 : List ℚ)
    (h : p2.length = p1.length) :
    correctSub calib bin p1.length i (p1 ++ l1, p2 ++ l2) =
      (p1 ++ (correctSub calib bin 0 i (l1, l2)).1,
       p2 ++ (correctSub calib bin 0 i (l1, l2)).2) := by
  unfold correctSub
  rw [applyAt_append _ _ _ _ _ _ h, applyAt_append _ _ _ _ _ _ h, applyAt_append _ _ _ _ _ _ h,
      applyAt_append _ _ _ _ _ _ h, applyAt_append _ _ _ _ _ _ h, applyAt_append _ _ _ _ _ _ h]
  simp only [Nat.zero_add]

lemma foldlCorr_append (calib : ℤ → ℕ → ℕ → ℚ) (bin : ℤ) (is : List ℕ)
    (p1 p2 : List ℚ) (h : p2.length = p1.length) :
    ∀ (l1 l2 : List ℚ),
      is.foldl (fun st i => correctSub calib bin p1.length i st) (p1 ++ l1, p2 ++ l2) =
        (p1 ++ (is.foldl (fun st i => correctSub calib bin 0 i st) (l1, l2)).1,
         p2 ++ (is.foldl (fun st i => correctSub calib bin 0 i st) (l1, l2)).2) := by
  induction is with
  | nil => intro l1 l2; simp
  | cons i rest ih =>
      intro l1 l2
      rw [List.foldl_cons, List.foldl_cons, correctSub_append calib bin i p1 p2 l1 l2 h]
      simpa using ih _ _

lemma applyCorr_append (calib : ℤ → ℕ → ℕ → ℚ) (bin : ℤ) (p1 p2 l1 l2 : List ℚ)
    (h : p2.length = p1.length) :
    applyCorr calib bin p1.length (p1 ++ l1, p2 ++ l2) =
      (p1 ++ (applyCorr calib bin 0 (l1, l2)).1, p2 ++ (applyCorr calib bin 0 (l1, l2)).2) := by
  unfold applyCorr
  exact foldlCorr_append calib bin (List.range 6) p1 p2 h l1 l2

lemma corrected_append (calib : ℤ → ℕ → ℕ → ℚ) (cent : ℚ) (id : ℕ)
    (preRe preIm : List ℚ) (l1 l2 : List ℚ)
    (h0 : 0 ≤ cent) (h1 : cent < 80)
    (hp1 : preRe.length = (kBNeg + 1) * 4 * id) (hp2 : preIm.length = (kBNeg + 1) * 4 * id) :
    corrected calib cent id (preRe ++ l1, preIm ++ l2) =
      (preRe ++ (applyCorr calib (centBin cent) 0 (l1, l2)).1,
       preIm ++ (applyCorr calib (centBin cent) 0 (l1, l2)).2) := by
  have hadj : adjustCent cent = (cent, true) := by
    unfold adjustCent
    rw [if_neg]
    push_neg
    constructor
    · exact h0
    · exact le_of_lt h1
  unfold corrected processHarmonic
  rw [hadj]
  simp only
  rw [if_pos h1, ← hp1]
  have h21 : preIm.length = preRe.length := by rw [hp1, hp2]
  exact applyCorr_append calib (centBin cent) preRe preIm l1 l2 h21

/-- C1: for an event with centrality in [0, 80), for every harmonic
block `id` and each of the six sub-systems, the correction pass applies
recentering alone to copy 1, recentering then twist to copy 2, and
recentering, twist, then rescale to copy 3 of the raw Q-vector, the
copy that is emitted to the output tables; every correction constant is
read from calibration x-bin `cppTrunc cent + 1`, the integer truncation
of the centrality plus one. -/
theorem c1_cascade (cent : ℚ) (calib : ℤ → ℕ → ℕ → ℚ) (id : ℕ)
    (preRe preIm : List ℚ) (q : Fin 6 → ℚ × ℚ)
    (h0 : 0 ≤ cent) (h1 : cent < 80)
    (hp1 : preRe.length = (kBNeg + 1) * 4 * id) (hp2 : preIm.length = (kBNeg + 1) * 4 * id) :
    adjustCent cent = (cent, true) ∧
    ∀ i : Fin 6,
      ((corrected calib cent id (preRe ++ qBlockRe q, preIm ++ qBlockIm q)).1.getD
          ((kBNeg + 1) * 4 * id + ((i : ℕ) * 4 + 1)) 0,
       (corrected calib cent id (preRe ++ qBlockRe q, preIm ++ qBlockIm q)).2.getD
          ((kBNeg + 1) * 4 * id + ((i : ℕ) * 4 + 1)) 0) =
        cascade1 calib (cppTrunc cent + 1) (i : ℕ) (q i) ∧
      ((corrected calib cent id (preRe ++ qBlockRe q, preIm ++ qBlockIm q)).1.getD
          ((kBNeg + 1) * 4 * id + ((i : ℕ) * 4 + 2)) 0,
       (corrected calib cent id (preRe ++ qBlockRe q, preIm ++ qBlockIm q)).2.getD
          ((kBNeg + 1) * 4 * id + ((i : ℕ) * 4 + 2)) 0) =
        cascade2 calib (cppTrunc cent + 1) (i : ℕ) (q i) ∧
      ((corrected calib cent id (preRe ++ qBlockRe q, preIm ++ qBlockIm q)).1.getD
          ((kBNeg + 1) * 4 * id + ((i : ℕ) * 4 + 3)) 0,
       (corrected calib cent id (preRe ++ qBlockRe q, preIm ++ qBlockIm q)).2.getD
          ((kBNeg + 1) * 4 * id + ((i : ℕ) * 4 + 3)) 0) =
        cascade3 calib (cppTrunc cent + 1) (i : ℕ) (q i) ∧
      emitPair (corrected calib cent id (preRe ++ qBlockRe q, preIm ++ qBlockIm q)) id (i : ℕ) =
        cascade3 calib (cppTrunc cent + 1) (i : ℕ) (q i) := by
  have hadj : adjustCent cent = (cent, true) := by
    unfold adjustCent
    rw [if_neg]
    push_neg
    exact ⟨h0, le_of_lt h1⟩
  refine ⟨hadj, ?_⟩
  intro i
  have hbin : centBin cent = cppTrunc cent + 1 := rfl
  have hs := corrected_append calib cent id preRe preIm (qBlockRe q) (qBlockIm q) h0 h1 hp1 hp2
  have hget : ∀ j : ℕ,
      ((corrected calib cent id (preRe ++ qBlockRe q, preIm ++ qBlockIm q)).1.getD
          ((kBNeg + 1) * 4 * id + j) 0,
       (corrected calib cent id (preRe ++ qBlockRe q, preIm ++ qBlockIm q)).2.getD
          ((kBNeg + 1) * 4 * id + j) 0) =
        ((applyCorr calib (centBin cent) 0 (qBlockRe q, qBlockIm q)).1.getD j 0,
         (applyCorr calib (centBin cent) 0 (qBlockRe q, qBlockIm q)).2.getD j 0) := by
    intro j
    rw [hs, ← hp1]
    rw [getD_append_len preRe _ j 0]
    rw [show preRe.length = preIm.length from by rw [hp1, hp2]]
    rw [getD_append_len preIm _ j 0]
  obtain ⟨-, hb1, hb2, hb3⟩ := applyCorr_block calib (centBin cent) q i
  rw [hbin] at hb1 hb2 hb3
  refine ⟨?_, ?_, ?_, ?_⟩
  · rw [hget ((i : ℕ) * 4 + 1)]; exact hb1
  · rw [hget ((i : ℕ) * 4 + 2)]; exact hb2
  · rw [hget ((i : ℕ) * 4 + 3)]; exact hb3
  · unfold emitPair
    rw [hget ((i : ℕ) * 4 + 3)]
    exact hb3

/-- Witness for C1: at centrality 42, constant calibration table 1,
harmonic block 0 and raw vectors all (2, 3), the theorem's hypotheses
hold and the emitted FT0C value is the full three-step cascade. -/
theorem c1_cascade_witness :
    emitPair
        (corrected (fun _ _ _ => 1) 42 0
          (([] : List ℚ) ++ qBlockRe (fun _ => (2, 3)),
           ([] : List ℚ) ++ qBlockIm (fun _ => (2, 3)))) 0 0 =
      cascade3 (fun _ _ _ => 1) (cppTrunc 42 + 1) 0 (2, 3) :=
  ((c1_cascade 42 (fun _ _ _ => 1) 0 [] [] (fun _ => (2, 3))
      (by decide) (by decide) (by decide) (by decide)).2 0).2.2.2

/-- C3 (amended): the calibration chain is skipped (no-op on the
component lists) whenever the raw centrality is at least 80 — and also
when it is negative, since the sentinel 110 likewise fails the `< 80`
guard; the uncalibrated flag and the sentinel centrality 110 are set
exactly when the raw centrality is negative or strictly above 80, so at
centrality exactly 80 the chain is a no-op while the event stays
flagged calibrated with centrality 80. -/
theorem c3_noop_amended (cent : ℚ) (calib : ℤ → ℕ → ℕ → ℚ) (base : ℕ)
    (s : List ℚ × List ℚ) :
    (80 ≤ cent → processHarmonic calib (adjustCent cent).1 base s = s) ∧
    (cent < 0 → processHarmonic calib (adjustCent cent).1 base s = s) ∧
    ((adjustCent cent).2 = false ↔ (cent < 0 ∨ 80 < cent)) ∧
    ((adjustCent cent).1 = 110 ↔ (cent < 0 ∨ 80 < cent)) := by
  unfold adjustCent
  by_cases hc : cent < 0 ∨ 80 < cent
  · rw [if_pos hc]
    refine ⟨fun _ => ?_, fun _ => ?_, ?_, ?_⟩
    · unfold processHarmonic
      rw [if_neg (by norm_num)]
    · unfold processHarmonic
      rw [if_neg (by norm_num)]
    · simp only
      exact ⟨fun _ => hc, fun _ => trivial⟩
    · simp only
      exact ⟨fun _ => hc, fun _ => trivial⟩
  · rw [if_neg hc]
    push_neg at hc
    refine ⟨fun h80 => ?_, fun hneg => ?_, ?_, ?_⟩
    · have h8 : cent = 80 := le_antisymm hc.2 h80
      unfold processHarmonic
      simp only
      rw [if_neg (by rw [h8]; norm_num)]
    · exact absurd hneg (not_lt.mpr hc.1)
    · simp only
      constructor
      · intro h; exact absurd h (by decide)
      · intro h
        rcases h with h | h
        · exact absurd h (not_lt.mpr hc.1)
        · exact absurd h (not_lt.mpr hc.2)
    · simp only
      constructor
      · intro h
        rw [h] at hc
        exact absurd hc.2 (by norm_num)
      · intro h
        rcases h with h | h
        · exact absurd h (not_lt.mpr hc.1)
        · exact absurd h (not_lt.mpr hc.2)

/-- Counterexample for C3 as stated: at centrality exactly 80 the chain
is a no-op, yet the calibrated flag stays true and the reported
centrality is 80, not the sentinel 110. -/
theorem c3_boundary_counterexample :
    adjustCent 80 = (80, true) ∧
    processHarmonic (fun _ _ _ => 0) (adjustCent 80).1 0 ([1], [1]) = ([1], [1]) ∧
    ¬ (adjustCent 80).2 = false ∧
    ¬ (adjustCent 80).1 = 110 := by
  refine ⟨by decide, ?_, by decide, by decide⟩
  unfold processHarmonic
  rw [if_neg (by decide)]

/-- Witness for C3 (amended): at centrality 95 the correction pass
leaves the component lists untouched. -/
theorem c3_noop_witness :
    processHarmonic (fun _ _ _ => 0) (adjustCent 95).1 0 ([2], [3]) = ([2], [3]) :=
  (c3_noop_amended 95 (fun _ _ _ => 0) 0 ([2], [3])).1 (by decide)

/-- C2 (code bug, evaluated at the failing inputs): the sentinel
policy is not uniform across sub-systems.  With FT0 data present, an
enabled FT0A seeing no channels yields `(0, 0)` — a legitimate physics
value — instead of `(+999, +999)`, and a disabled FT0A (FT0C in use)
yields `(+999, +999)` instead of `(-999, -999)`; a disabled FT0M
likewise yields `(+999, +999)`; and a disabled BPos sub-event yields
`(999, 999)`, never `(-999, -999)`.  FT0C itself follows the claimed
policy in both situations. -/
theorem c2_ft0a_sentinel_bug :
    (ft0Block ⟨true, false, false, false, false, false⟩ true [] (fun _ _ => 0)
        ⟨fun _ => 1, fun _ => 0⟩ 2 [] []).qA = (0, 0) ∧
    (ft0Block ⟨false, true, false, false, false, false⟩ true [] (fun _ _ => 0)
        ⟨fun _ => 1, fun _ => 0⟩ 2 [] []).qA = (999, 999) ∧
    (ft0Block ⟨false, true, false, false, false, false⟩ true [] (fun _ _ => 0)
        ⟨fun _ => 1, fun _ => 0⟩ 2 [] []).qC = (999, 999) ∧
    (ft0Block ⟨true, false, false, false, false, false⟩ true [] (fun _ _ => 0)
        ⟨fun _ => 1, fun _ => 0⟩ 2 [] []).qC = (-999, -999) ∧
    (ft0Block ⟨false, true, false, false, false, false⟩ true [] (fun _ _ => 0)
        ⟨fun _ => 1, fun _ => 0⟩ 2 [] []).qM = (999, 999) ∧
    (finalizeB (trackLoop ⟨fun _ => 1, fun _ => 0⟩ ⟨false, false, false, false, false, true⟩
        (3/20) 5 2 [⟨1, 1/2, 0, 7, true, true, true, true, true, true, true⟩])).1 =
      (999, 999) := by
  refine ⟨?_, ?_, ?_, ?_, ?_, ?_⟩
  · norm_num [ft0Block, accumChans, accumQ, initQ, eps]
  · norm_num [ft0Block]
  · norm_num [ft0Block, accumChans, accumQ, initQ, eps]
  · norm_num [ft0Block]
  · norm_num [ft0Block, accumChans, accumQ, initQ, eps]
  · norm_num [finalizeB, trackLoop, trackStep, SelTrack]

/-- C6 (code bug, evaluated at the failing input): when the calibration
objects for both the requested harmonic and the harmonic-2 fallback are
missing, `initCCDB` stores an absent object, while the correction pass
of `process` is guarded only by the centrality test — at centrality 30
the corrections still run, dereferencing the absent object, instead of
being skipped.  The fallback half of the claim does hold: with only the
harmonic-2 object present, harmonic 3 silently uses it. -/
theorem c6_missing_calib_bug :
    loadCalibTable (fun _ => none) 3 = none ∧
    correctionsApplied 30 = true ∧
    loadCalibTable (fun j => if j = 2 then some (fun _ _ _ => 5) else none) 3 =
      some (fun _ _ _ => 5) := by
  refine ⟨rfl, by decide, rfl⟩

/-- C7: the amplitude fed to Q-vector accumulation is the raw amplitude
divided by the channel's relative gain; a missing gain object defaults
to the all-ones table of the family's fixed channel count (208 for FT0,
48 for FV0), so every corrected amplitude equals the raw amplitude. -/
theorem c7_gain_default :
    (ft0Gain none).length = 208 ∧
    (fv0Gain none).length = 48 ∧
    (∀ i : ℕ, (ft0Gain none).getD i 1 = 1) ∧
    (∀ i : ℕ, (fv0Gain none).getD i 1 = 1) ∧
    (∀ (gain : List ℚ) (ch : ℕ) (a : ℚ), correctedAmp gain ch a = a / gain.getD ch 1) ∧
    (∀ (ch : ℕ) (a : ℚ), correctedAmp (ft0Gain none) ch a = a) ∧
    (∀ (ch : ℕ) (a : ℚ), correctedAmp (fv0Gain none) ch a = a) := by
  have hg : ∀ i : ℕ, (ft0Gain none).getD i 1 = 1 := by
    intro i
    unfold ft0Gain
    rw [List.getD_eq_getElem?_getD, List.getElem?_replicate]
    by_cases h : i < 208
    · rw [if_pos h]; rfl
    · rw [if_neg h]; rfl
  have hv : ∀ i : ℕ, (fv0Gain none).getD i 1 = 1 := by
    intro i
    unfold fv0Gain
    rw [List.getD_eq_getElem?_getD, List.getElem?_replicate]
    by_cases h : i < 48
    · rw [if_pos h]; rfl
    · rw [if_neg h]; rfl
  refine ⟨?_, ?_, hg, hv, fun _ _ _ => rfl, ?_, ?_⟩
  · rw [show ft0Gain none = List.replicate 208 1 from rfl, List.length_replicate]
  · rw [show fv0Gain none = List.replicate 48 1 from rfl, List.length_replicate]
  · intro ch a
    unfold correctedAmp
    rw [hg ch, div_one]
  · intro ch a
    unfold correctedAmp
    rw [hv ch, div_one]

/-- C9: the FT0M accumulator receives a side's channels only when that
side's own sub-system is enabled.  With FT0A disabled the whole FT0
block — in particular the FT0M sum — is independent of the A-side
channel list, and the FT0M sum is exactly the C-side-only
accumulation; symmetrically, with FT0C disabled the block is
independent of the C-side channel list. -/
theorem c9_ft0m_side_gating (cfg : Config) (hasFT0 : Bool) (gain : List ℚ)
    (phiOf : ℕ → ℕ → ℚ) (tg : Trig) (n : ℕ) (chanA chanC : List (ℕ × ℚ)) :
    (cfg.useFT0A = false →
      ft0Block cfg hasFT0 gain phiOf tg n chanA chanC =
        ft0Block cfg hasFT0 gain phiOf tg n [] chanC) ∧
    (cfg.useFT0A = false → cfg.useFT0C = true → hasFT0 = true →
      (ft0Block cfg hasFT0 gain phiOf tg n chanA chanC).sumM =
        (accumChans tg gain phiOf 0 n 96 chanC initQ).2) ∧
    (cfg.useFT0C = false →
      ft0Block cfg hasFT0 gain phiOf tg n chanA chanC =
        ft0Block cfg hasFT0 gain phiOf tg n chanA []) := by
  refine ⟨?_, ?_, ?_⟩
  · intro hA
    unfold ft0Block
    simp [hA]
  · intro hA hC hT
    unfold ft0Block
    simp [hA, hC, hT]
  · intro hC
    unfold ft0Block
    simp [hC]

/-- Witness for C9: with FT0A disabled and FT0C, FT0M enabled, the FT0M
sum over one concrete C-side channel equals the C-side-only
accumulation. -/
theorem c9_ft0m_side_gating_witness :
    (ft0Block ⟨false, true, true, false, false, false⟩ true [] (fun _ _ => 0)
        ⟨fun _ => 1, fun _ => 0⟩ 2 [(0, 5)] [(1, 7)]).sumM =
      (accumChans ⟨fun _ => 1, fun _ => 0⟩ [] (fun _ _ => 0) 0 2 96 [(1, 7)] initQ).2 :=
  (c9_ft0m_side_gating ⟨false, true, true, false, false, false⟩ true [] (fun _ _ => 0)
      ⟨fun _ => 1, fun _ => 0⟩ 2 [(0, 5)] [(1, 7)]).2.1 rfl rfl rfl

/-- C5 (amended): provided both track sub-systems are enabled, the
partition is exhaustive and disjoint: the positive (negative) label
list is exactly the traversal-ordered selected tracks with eta inside
`[0.1, 0.8]` in absolute value and eta > 0 (eta < 0); no track is
routed to both; every selected in-band track is routed to one of the
two; and out-of-band tracks are routed to neither.  (If one side is
disabled, its tracks are routed nowhere — see the counterexample.) -/
theorem c5_partition_amended (tg : Trig) (cfg : Config) (minPt maxPt : ℚ) (n : ℕ)
    (tracks : List Track) (hP : cfg.useBPos = true) (hN : cfg.useBNeg = true) :
    (trackLoop tg cfg minPt maxPt n tracks).labP =
      (tracks.filter (goesPos cfg minPt maxPt)).map Track.globalIndex ∧
    (trackLoop tg cfg minPt maxPt n tracks).labN =
      (tracks.filter (goesNeg cfg minPt maxPt)).map Track.globalIndex ∧
    (∀ t : Track, ¬ (goesPos cfg minPt maxPt t = true ∧ goesNeg cfg minPt maxPt t = true)) ∧
    (∀ t : Track, SelTrack minPt maxPt t = true → 1/10 ≤ |t.eta| → |t.eta| ≤ 8/10 →
      (goesPos cfg minPt maxPt t = true ∨ goesNeg cfg minPt maxPt t = true)) ∧
    (∀ t : Track, (|t.eta| < 1/10 ∨ 8/10 < |t.eta|) →
      goesPos cfg minPt maxPt t = false ∧ goesNeg cfg minPt maxPt t = false) := by
  refine ⟨?_, ?_, ?_, ?_, ?_⟩
  · simpa using trackLoop_aux_labP tg cfg minPt maxPt n tracks ⟨(0, 0), (0, 0), [], [], 0, 0⟩
  · simpa using trackLoop_aux_labN tg cfg minPt maxPt n tracks ⟨(0, 0), (0, 0), [], [], 0, 0⟩
  · rintro t ⟨hp, hn⟩
    unfold goesPos at hp
    unfold goesNeg at hn
    by_cases h1 : SelTrack minPt maxPt t = false
    · rw [if_pos h1] at hp; simp at hp
    · rw [if_neg h1] at hp hn
      by_cases h2 : |t.eta| < 1/10 ∨ 8/10 < |t.eta|
      · rw [if_pos h2] at hp; simp at hp
      · rw [if_neg h2] at hp hn
        by_cases h3 : 0 < t.eta ∧ cfg.useBPos = true
        · rw [if_pos h3] at hn; simp at hn
        · rw [if_neg h3] at hp; simp at hp
  · intro t hs h1 h2
    have hsel : ¬ SelTrack minPt maxPt t = false := by rw [hs]; simp
    have hband : ¬ (|t.eta| < 1/10 ∨ 8/10 < |t.eta|) := by
      push_neg
      exact ⟨h1, h2⟩
    rcases lt_trichotomy t.eta 0 with he | he | he
    · right
      unfold goesNeg
      rw [if_neg hsel, if_neg hband,
          if_neg (by rintro ⟨h, -⟩; exact absurd he (asymm h)), if_pos ⟨he, hN⟩]
    · exfalso
      rw [he] at h1
      norm_num at h1
    · left
      unfold goesPos
      rw [if_neg hsel, if_neg hband, if_pos ⟨he, hP⟩]
  · intro t hband
    unfold goesPos goesNeg
    by_cases h1 : SelTrack minPt maxPt t = false
    · rw [if_pos h1, if_pos h1]
      exact ⟨rfl, rfl⟩
    · rw [if_neg h1, if_neg h1, if_pos hband, if_pos hband]
      exact ⟨rfl, rfl⟩

/-- Counterexample for C5 as stated: with the BPos sub-system disabled
(and BNeg enabled), a track that passes the selection and lies inside
the eta band at eta = 1/2 lands in neither sub-event: both label lists
stay empty. -/
theorem c5_partition_counterexample :
    SelTrack (3/20) 5 ⟨1, 1/2, 0, 7, true, true, true, true, true, true, true⟩ = true ∧
    1/10 ≤ |(⟨1, 1/2, 0, 7, true, true, true, true, true, true, true⟩ : Track).eta| ∧
    |(⟨1, 1/2, 0, 7, true, true, true, true, true, true, true⟩ : Track).eta| ≤ 8/10 ∧
    (trackLoop ⟨fun _ => 1, fun _ => 0⟩ ⟨false, false, false, false, false, true⟩ (3/20) 5 2
        [⟨1, 1/2, 0, 7, true, true, true, true, true, true, true⟩]).labP = [] ∧
    (trackLoop ⟨fun _ => 1, fun _ => 0⟩ ⟨false, false, false, false, false, true⟩ (3/20) 5 2
        [⟨1, 1/2, 0, 7, true, true, true, true, true, true, true⟩]).labN = [] := by
  refine ⟨?_, ?_, ?_, ?_, ?_⟩ <;> norm_num [SelTrack, trackLoop, trackStep, abs_of_nonneg]

/-- Witness for C5 (amended): with both sides enabled, the positive
label list over one selected eta = 1/2 track is the filtered map. -/
theorem c5_partition_witness :
    (trackLoop ⟨fun _ => 1, fun _ => 0⟩ ⟨false, false, false, false, true, true⟩ (3/20) 5 2
        [⟨1, 1/2, 0, 7, true, true, true, true, true, true, true⟩]).labP =
      ([⟨1, 1/2, 0, 7, true, true, true, true, true, true, true⟩].filter
          (goesPos ⟨false, false, false, false, true, true⟩ (3/20) 5)).map Track.globalIndex :=
  (c5_partition_amended ⟨fun _ => 1, fun _ => 0⟩ ⟨false, false, false, false, true, true⟩
      (3/20) 5 2 [⟨1, 1/2, 0, 7, true, true, true, true, true, true, true⟩] rfl rfl).1

lemma qBlockRe_getD (q : Fin 6 → ℚ × ℚ) (i : Fin 6) (k : Fin 4) :
    (qBlockRe q).getD ((i : ℕ) * 4 + (k : ℕ)) 0 = (q i).1 := by
  fin_cases i <;> fin_cases k <;> rfl

lemma qBlockIm_getD (q : Fin 6 → ℚ × ℚ) (i : Fin 6) (k : Fin 4) :
    (qBlockIm q).getD ((i : ℕ) * 4 + (k : ℕ)) 0 = (q i).2 := by
  fin_cases i <;> fin_cases k <;> rfl

/-- C8: one `CalQvec` call appends exactly 24 entries to each component
list — four identical copies per sub-system, grouped in the enum order
FT0C, FT0A, FT0M, FV0A, BPos, BNeg (the `subsysVals` order) — and
exactly 6 entries to the amplitude list in the same order; the value
emitted to the output tables for sub-system `i` of harmonic block `id`
is the entry at offset `i * 4 + 3`, the fourth copy of its group. -/
theorem c8_append_shape (tg : Trig) (cfg : Config) (minPt maxPt : ℚ) (gF gV : List ℚ)
    (phiOf : ℕ → ℕ → ℚ) (n : ℕ) (hasFT0 hasFV0 : Bool)
    (chanA chanC chanV : List (ℕ × ℚ)) (tracks : List Track) (st : QState) (id : ℕ)
    (h1 : st.re.length = (kBNeg + 1) * 4 * id) (h2 : st.im.length = (kBNeg + 1) * 4 * id) :
    (calQvec tg cfg minPt maxPt gF gV phiOf n hasFT0 hasFV0 chanA chanC chanV tracks st).re.length
        = st.re.length + 24 ∧
    (calQvec tg cfg minPt maxPt gF gV phiOf n hasFT0 hasFV0 chanA chanC chanV tracks st).im.length
        = st.im.length + 24 ∧
    (calQvec tg cfg minPt maxPt gF gV phiOf n hasFT0 hasFV0 chanA chanC chanV tracks st).amp.length
        = st.amp.length + 6 ∧
    (∀ i : Fin 6, ∀ k : Fin 4,
      (calQvec tg cfg minPt maxPt gF gV phiOf n hasFT0 hasFV0 chanA chanC chanV tracks st).re.getD
          (st.re.length + ((i : ℕ) * 4 + (k : ℕ))) 0 =
        (subsysVals (ft0Block cfg hasFT0 gF phiOf tg n chanA chanC)
          (fv0Block cfg hasFV0 gV phiOf tg n chanV)
          (finalizeB (trackLoop tg cfg minPt maxPt n tracks)).1
          (finalizeB (trackLoop tg cfg minPt maxPt n tracks)).2 i).1 ∧
      (calQvec tg cfg minPt maxPt gF gV phiOf n hasFT0 hasFV0 chanA chanC chanV tracks st).im.getD
          (st.im.length + ((i : ℕ) * 4 + (k : ℕ))) 0 =
        (subsysVals (ft0Block cfg hasFT0 gF phiOf tg n chanA chanC)
          (fv0Block cfg hasFV0 gV phiOf tg n chanV)
          (finalizeB (trackLoop tg cfg minPt maxPt n tracks)).1
          (finalizeB (trackLoop tg cfg minPt maxPt n tracks)).2 i).2) ∧
    (∀ i : Fin 6,
      (calQvec tg cfg minPt maxPt gF gV phiOf n hasFT0 hasFV0 chanA chanC chanV tracks st).amp.getD
          (st.amp.length + (i : ℕ)) 0 =
        [(ft0Block cfg hasFT0 gF phiOf tg n chanA chanC).sumC,
         (ft0Block cfg hasFT0 gF phiOf tg n chanA chanC).sumA,
         (ft0Block cfg hasFT0 gF phiOf tg n chanA chanC).sumM,
         (fv0Block cfg hasFV0 gV phiOf tg n chanV).2,
         ((trackLoop tg cfg minPt maxPt n tracks).nP : ℚ),
         ((trackLoop tg cfg minPt maxPt n tracks).nN : ℚ)].getD (i : ℕ) 0) ∧
    (∀ i : Fin 6,
      emitPair
          ((calQvec tg cfg minPt maxPt gF gV phiOf n hasFT0 hasFV0 chanA chanC chanV tracks st).re,
           (calQvec tg cfg minPt maxPt gF gV phiOf n hasFT0 hasFV0 chanA chanC chanV tracks st).im)
          id (i : ℕ) =
        subsysVals (ft0Block cfg hasFT0 gF phiOf tg n chanA chanC)
          (fv0Block cfg hasFV0 gV phiOf tg n chanV)
          (finalizeB (trackLoop tg cfg minPt maxPt n tracks)).1
          (finalizeB (trackLoop tg cfg minPt maxPt n tracks)).2 i) := by
  have hre : (calQvec tg cfg minPt maxPt gF gV phiOf n hasFT0 hasFV0 chanA chanC chanV
      tracks st).re =
      st.re ++ qBlockRe (subsysVals (ft0Block cfg hasFT0 gF phiOf tg n chanA chanC)
        (fv0Block cfg hasFV0 gV phiOf tg n chanV)
        (finalizeB (trackLoop tg cfg minPt maxPt n tracks)).1
        (finalizeB (trackLoop tg cfg minPt maxPt n tracks)).2) := rfl
  have him : (calQvec tg cfg minPt maxPt gF gV phiOf n hasFT0 hasFV0 chanA chanC chanV
      tracks st).im =
      st.im ++ qBlockIm (subsysVals (ft0Block cfg hasFT0 gF phiOf tg n chanA chanC)
        (fv0Block cfg hasFV0 gV phiOf tg n chanV)
        (finalizeB (trackLoop tg cfg minPt maxPt n tracks)).1
        (finalizeB (trackLoop tg cfg minPt maxPt n tracks)).2) := rfl
  have hamp : (calQvec tg cfg minPt maxPt gF gV phiOf n hasFT0 hasFV0 chanA chanC chanV
      tracks st).amp =
      st.amp ++ [(ft0Block cfg hasFT0 gF phiOf tg n chanA chanC).sumC,
        (ft0Block cfg hasFT0 gF phiOf tg n chanA chanC).sumA,
        (ft0Block cfg hasFT0 gF phiOf tg n chanA chanC).sumM,
        (fv0Block cfg hasFV0 gV phiOf tg n chanV).2,
        ((trackLoop tg cfg minPt maxPt n tracks).nP : ℚ),
        ((trackLoop tg cfg minPt maxPt n tracks).nN : ℚ)] := rfl
  refine ⟨?_, ?_, ?_, ?_, ?_, ?_⟩
  · rw [hre, List.length_append, qBlockRe_length]
  · rw [him, List.length_append, qBlockIm_length]
  · rw [hamp, List.length_append]
    rfl
  · intro i k
    constructor
    · rw [hre, getD_append_len, qBlockRe_getD]
    · rw [him, getD_append_len, qBlockIm_getD]
  · intro i
    rw [hamp, getD_append_len]
  · intro i
    have e1 : (calQvec tg cfg minPt maxPt gF gV phiOf n hasFT0 hasFV0 chanA chanC chanV
        tracks st).re.getD ((kBNeg + 1) * 4 * id + ((i : ℕ) * 4 + 3)) 0 =
        (subsysVals (ft0Block cfg hasFT0 gF phiOf tg n chanA chanC)
          (fv0Block cfg hasFV0 gV phiOf tg n chanV)
          (finalizeB (trackLoop tg cfg minPt maxPt n tracks)).1
          (finalizeB (trackLoop tg cfg minPt maxPt n tracks)).2 i).1 := by
      rw [hre, ← h1, getD_append_len]
      exact qBlockRe_getD _ i 3
    have e2 : (calQvec tg cfg minPt maxPt gF gV phiOf n hasFT0 hasFV0 chanA chanC chanV
        tracks st).im.getD ((kBNeg + 1) * 4 * id + ((i : ℕ) * 4 + 3)) 0 =
        (subsysVals (ft0Block cfg hasFT0 gF phiOf tg n chanA chanC)
          (fv0Block cfg hasFV0 gV phiOf tg n chanV)
          (finalizeB (trackLoop tg cfg minPt maxPt n tracks)).1
          (finalizeB (trackLoop tg cfg minPt maxPt n tracks)).2 i).2 := by
      rw [him, ← h2, getD_append_len]
      exact qBlockIm_getD _ i 3
    unfold emitPair
    simp only
    rw [e1, e2]

/-- Witness for C8: on an empty prior state (harmonic block 0) with all
sub-systems disabled and no input data, the emitted FT0C pair is the
group value. -/
theorem c8_append_shape_witness :
    emitPair
        ((calQvec ⟨fun _ => 1, fun _ => 0⟩ ⟨false, false, false, false, false, false⟩ 1 5 [] []
            (fun _ _ => 0) 2 false false [] [] [] [] ⟨[], [], [], [], []⟩).re,
         (calQvec ⟨fun _ => 1, fun _ => 0⟩ ⟨false, false, false, false, false, false⟩ 1 5 [] []
            (fun _ _ => 0) 2 false false [] [] [] [] ⟨[], [], [], [], []⟩).im) 0 0 =
      subsysVals
        (ft0Block ⟨false, false, false, false, false, false⟩ false [] (fun _ _ => 0)
          ⟨fun _ => 1, fun _ => 0⟩ 2 [] [])
        (fv0Block ⟨false, false, false, false, false, false⟩ false [] (fun _ _ => 0)
          ⟨fun _ => 1, fun _ => 0⟩ 2 [])
        (finalizeB (trackLoop ⟨fun _ => 1, fun _ => 0⟩ ⟨false, false, false, false, false, false⟩
          1 5 2 [])).1
        (finalizeB (trackLoop ⟨fun _ => 1, fun _ => 0⟩ ⟨false, false, false, false, false, false⟩
          1 5 2 [])).2 0 :=
  (c8_append_shape ⟨fun _ => 1, fun _ => 0⟩ ⟨false, false, false, false, false, false⟩ 1 5 [] []
      (fun _ _ => 0) 2 false false [] [] [] [] ⟨[], [], [], [], []⟩ 0 rfl rfl).2.2.2.2.2 0

lemma accumQ_bound (tg : Trig) (hu : tg.unit) (n : ℕ) :
    ∀ (chans : List (ℚ × ℚ)) (init : (ℚ × ℚ) × ℚ),
      (∀ c ∈ chans, 0 ≤ c.2) →
      init.1.1 ^ 2 + init.1.2 ^ 2 ≤ init.2 ^ 2 → 0 ≤ init.2 →
      (accumQ tg n chans init).1.1 ^ 2 + (accumQ tg n chans init).1.2 ^ 2 ≤
          (accumQ tg n chans init).2 ^ 2 ∧
        0 ≤ (accumQ tg n chans init).2 := by
  intro chans
  induction chans with
  | nil => intro init hc hb hw; exact ⟨hb, hw⟩
  | cons c rest ih =>
      intro init hc hb hw
      obtain ⟨⟨x, y⟩, W⟩ := init
      obtain ⟨φ, a⟩ := c
      have ha : (0 : ℚ) ≤ a := hc (φ, a) (List.mem_cons_self _ _)
      have hcs := hu ((n : ℚ) * φ)
      have hsub : x ^ 2 + y ^ 2 - (x * tg.cosF ((n : ℚ) * φ) + y * tg.sinF ((n : ℚ) * φ)) ^ 2 =
          (x * tg.sinF ((n : ℚ) * φ) - y * tg.cosF ((n : ℚ) * φ)) ^ 2 -
            (x ^ 2 + y ^ 2) * (tg.cosF ((n : ℚ) * φ) ^ 2 + tg.sinF ((n : ℚ) * φ) ^ 2 - 1) := by
        ring
      have ht2 : (x * tg.cosF ((n : ℚ) * φ) + y * tg.sinF ((n : ℚ) * φ)) ^ 2 ≤ W ^ 2 := by
        nlinarith [hsub, hcs, hb, sq_nonneg (x * tg.sinF ((n : ℚ) * φ) - y * tg.cosF ((n : ℚ) * φ))]
      have htW : x * tg.cosF ((n : ℚ) * φ) + y * tg.sinF ((n : ℚ) * φ) ≤ W := by
        by_contra hcon
        push_neg at hcon
        exact absurd ht2 (not_le.mpr (pow_lt_pow_left₀ hcon hw two_ne_zero))
      have h2 : (0 : ℚ) ≤ a * (W - (x * tg.cosF ((n : ℚ) * φ) + y * tg.sinF ((n : ℚ) * φ))) :=
        mul_nonneg ha (by linarith)
      have hstep : (x + a * tg.cosF ((n : ℚ) * φ)) ^ 2 + (y + a * tg.sinF ((n : ℚ) * φ)) ^ 2 ≤
          (W + a) ^ 2 := by
        have e : (x + a * tg.cosF ((n : ℚ) * φ)) ^ 2 + (y + a * tg.sinF ((n : ℚ) * φ)) ^ 2 =
            (x ^ 2 + y ^ 2) +
              2 * a * (x * tg.cosF ((n : ℚ) * φ) + y * tg.sinF ((n : ℚ) * φ)) +
              a ^ 2 * (tg.cosF ((n : ℚ) * φ) ^ 2 + tg.sinF ((n : ℚ) * φ) ^ 2) := by
          ring
        rw [e, hcs]
        nlinarith [hb, h2]
      have hres := ih (sumQvectors tg n φ a ((x, y), W))
        (fun z hz => hc z (List.mem_cons_of_mem _ hz)) hstep
        (by simp [sumQvectors]; linarith)
      exact hres

/-- C4 (amended): for a unit-circle trig oracle and a channel list with
nonnegative amplitudes, if the amplitude sum W exceeds 1e-8 the
accumulator outputs Q/W and the squared magnitude of this output is
bounded by 1; if W ≤ 1e-8 the output is the sentinel `(999, 999)` and
never a division artifact.  (With mixed-sign amplitudes the bound can
fail — see the counterexample.) -/
theorem c4_bounded_amended (tg : Trig) (n : ℕ) (chans : List (ℚ × ℚ))
    (hu : tg.unit) (hc : ∀ c ∈ chans, 0 ≤ c.2) :
    (eps < (accumQ tg n chans initQ).2 →
      subEventOut tg n chans =
        ((accumQ tg n chans initQ).1.1 / (accumQ tg n chans initQ).2,
         (accumQ tg n chans initQ).1.2 / (accumQ tg n chans initQ).2) ∧
      (subEventOut tg n chans).1 ^ 2 + (subEventOut tg n chans).2 ^ 2 ≤ 1) ∧
    ((accumQ tg n chans initQ).2 ≤ eps → subEventOut tg n chans = (999, 999)) := by
  have hb := accumQ_bound tg hu n chans initQ hc (by norm_num [initQ]) (by norm_num [initQ])
  constructor
  · intro hW
    have hW0 : 0 < (accumQ tg n chans initQ).2 :=
      lt_trans (by norm_num [eps]) hW
    constructor
    · unfold subEventOut
      rw [if_pos hW]
    · unfold subEventOut
      rw [if_pos hW]
      simp only
      rw [div_pow, div_pow, div_add_div_same, div_le_one (pow_pos hW0 2)]
      exact hb.1
  · intro hW
    unfold subEventOut
    rw [if_neg (not_lt.mpr hW)]

/-- Counterexample for C4 as stated: with a valid unit-circle oracle
and amplitudes 2 and -3/2 at azimuths of opposite cosine, the total
amplitude W = 1/2 exceeds 1e-8, yet the normalized output is (7, 0),
whose squared magnitude 49 exceeds 1. -/
theorem c4_bound_counterexample :
    Trig.unit ⟨fun x => if x = 0 then 1 else -1, fun _ => 0⟩ ∧
    eps < (accumQ ⟨fun x => if x = 0 then 1 else -1, fun _ => 0⟩ 1
        [(0, 2), (1, -(3/2))] initQ).2 ∧
    subEventOut ⟨fun x => if x = 0 then 1 else -1, fun _ => 0⟩ 1 [(0, 2), (1, -(3/2))] =
      (7, 0) ∧
    ¬ ((subEventOut ⟨fun x => if x = 0 then 1 else -1, fun _ => 0⟩ 1
          [(0, 2), (1, -(3/2))]).1 ^ 2 +
        (subEventOut ⟨fun x => if x = 0 then 1 else -1, fun _ => 0⟩ 1
          [(0, 2), (1, -(3/2))]).2 ^ 2 ≤ 1) := by
  refine ⟨?_, ?_, ?_, ?_⟩
  · intro x
    by_cases h : x = 0 <;> simp [h]
  · norm_num [accumQ, sumQvectors, initQ, eps]
  · norm_num [subEventOut, accumQ, sumQvectors, initQ, eps]
  · norm_num [subEventOut, accumQ, sumQvectors, initQ, eps]

/-- Witness for C4 (amended): a single channel of amplitude 2 with the
constant oracle gives output of squared magnitude at most 1. -/
theorem c4_bounded_witness :
    (subEventOut ⟨fun _ => 1, fun _ => 0⟩ 1 [(0, 2)]).1 ^ 2 +
        (subEventOut ⟨fun _ => 1, fun _ => 0⟩ 1 [(0, 2)]).2 ^ 2 ≤ 1 :=
  ((c4_bounded_amended ⟨fun _ => 1, fun _ => 0⟩ 1 [(0, 2)]
      (fun x => by norm_num)
      (by intro z hz; simp at hz; rw [hz]; norm_num)).1
    (by norm_num [accumQ, sumQvectors, initQ, eps])).2

end QvectorsTable

namespace JflucWeightsLoader

lemma loadWeights_eq (ph : Option (List ℚ → ℚ)) (mult posZ : ℚ) :
    ∀ (tracks : List WTrack) (out : List (ℚ × ℚ)),
      loadWeights ph mult posZ tracks out = out ++ tracks.map (weightRow ph mult posZ) := by
  intro tracks
  induction tracks with
  | nil => intro out; simp [loadWeights]
  | cons t rest ih =>
      intro out
      unfold loadWeights
      rw [List.foldl_cons]
      have h := ih (out ++ [weightRow ph mult posZ t])
      unfold loadWeights at h
      rw [h, List.map_cons, List.append_assoc]
      rfl

/-- C10: `loadWeights` produces exactly one output weight row per input
track, in traversal order; the efficiency weight is always exactly 1;
and when no correction histogram is loaded the phi weight is exactly 1
for every track. -/
theorem c10_weight_rows (ph : Option (List ℚ → ℚ)) (mult posZ : ℚ)
    (tracks : List WTrack) (out : List (ℚ × ℚ)) :
    loadWeights ph mult posZ tracks out = out ++ tracks.map (weightRow ph mult posZ) ∧
    (loadWeights ph mult posZ tracks out).length = out.length + tracks.length ∧
    (∀ t : WTrack, (weightRow ph mult posZ t).2 = 1) ∧
    (ph = none → ∀ t : WTrack, weightRow ph mult posZ t = (1, 1)) := by
  refine ⟨loadWeights_eq ph mult posZ tracks out, ?_, fun t => rfl, ?_⟩
  · rw [loadWeights_eq ph mult posZ tracks out]
    simp
  · intro h t
    rw [h]
    rfl

/-- Witness for C10: with no histogram, the weight row of a concrete
track is `(1, 1)`. -/
theorem c10_weight_rows_witness :
    weightRow (none : Option (List ℚ → ℚ)) 1 0 ⟨0, 0⟩ = (1, 1) :=
  (c10_weight_rows none 1 0 [] []).2.2.2 rfl ⟨0, 0⟩

end JflucWeightsLoader
